import Mathlib

/-!
Verification of the rChess core (game state machine and adversarial search)
against its design document.

The board-rules library (position representation, legal-move generation,
move application, status detection, move parsing) is an external collaborator
of the program; the design document treats it as an abstract rules oracle
consumed through a narrow interface.  We model that interface as the
structure `Oracle` below, and translate the program's own code — the
evaluator, the minimax search, and the `Game` state machine — as Lean
functions over an arbitrary oracle.  Each square of a board is either empty
or holds one piece of one color, which we expose through `occupant`; the
library's `piece_on` / `color_on` accessors are its two projections.
-/

namespace RChess

/-- The two player sides (the library's `Color`). -/
inductive Color : Type
  | white
  | black
deriving DecidableEq, Repr

/-- The library's `!color` operator: the opposite side. -/
def Color.not : Color → Color
  | .white => .black
  | .black => .white

@[simp] theorem Color.not_not (c : Color) : c.not.not = c := by
  cases c <;> rfl

/-- The six piece kinds (the library's `Piece`). -/
inductive Piece : Type
  | pawn
  | knight
  | bishop
  | rook
  | queen
  | king
deriving DecidableEq, Repr

/-- The library's `BoardStatus`. -/
inductive BoardStatus : Type
  | ongoing
  | checkmate
  | stalemate
deriving DecidableEq, Repr

/-- A board square; the library's `ALL_SQUARES` enumerates all 64. -/
abbrev Square := Fin 64

/-- The library's `ALL_SQUARES` constant. -/
def ALL_SQUARES : List Square := List.finRange 64

/-- The narrow interface of the external rules library that the program
consumes: occupancy of each square, legal-move enumeration in the library's
native order, move application, status detection, a legality test, the side
to move of a position, the two notation parsers, and the starting position.
`B` is the library's board (position) type and `M` its move type, both
opaque to the program. -/
structure Oracle (B M : Type) where
  occupant : B → Square → Option (Piece × Color)
  legalMoves : B → List M
  makeMoveNew : B → M → B
  status : B → BoardStatus
  legal : B → M → Bool
  sideToMove : B → Color
  fromStr : String → Option M
  fromSan : B → String → Option M
  defaultBoard : B

variable {B M : Type}

/-- The library's `board.piece_on(square)`. -/
def piece_on (O : Oracle B M) (b : B) (sq : Square) : Option Piece :=
  (O.occupant b sq).map Prod.fst

/-- The library's `board.color_on(square)`. -/
def color_on (O : Oracle B M) (b : B) (sq : Square) : Option Color :=
  (O.occupant b sq).map Prod.snd

/-- The material value table of `evaluate` (ai.rs, lines 7–14). -/
def piece_value : Piece → Int
  | .pawn => 1
  | .knight => 3
  | .bishop => 3
  | .rook => 5
  | .queen => 9
  | .king => 20

/-- The contribution of one square to `evaluate`'s score: the loop body of
ai.rs lines 6–20 (zero when the square is empty, otherwise the piece value
added when the occupant has the perspective color and subtracted
otherwise). -/
def square_score (O : Oracle B M) (b : B) (perspective : Color) (sq : Square) : Int :=
  match piece_on O b sq with
  | none => 0
  | some piece =>
      if color_on O b sq = some perspective then piece_value piece
      else - piece_value piece

/-- `evaluate` of ai.rs lines 3–23: fold the per-square contributions over
`ALL_SQUARES`, starting from score 0. -/
def evaluate (O : Oracle B M) (b : B) (perspective : Color) : Int :=
  ALL_SQUARES.foldl (fun score sq => score + square_score O b perspective sq) 0

theorem evaluate_eq_sum (O : Oracle B M) (b : B) (p : Color) :
    evaluate O b p = (ALL_SQUARES.map (square_score O b p)).sum := by
  unfold evaluate
  have h : ∀ (l : List Square) (a : Int),
      l.foldl (fun score sq => score + square_score O b p sq) a
        = a + (l.map (square_score O b p)).sum := by
    intro l
    induction l with
    | nil => intro a; simp
    | cons x xs ih =>
        intro a
        simp only [List.foldl_cons, List.map_cons, List.sum_cons, ih]
        ring
  simpa using h ALL_SQUARES 0

theorem square_score_neg (O : Oracle B M) (b : B) (sq : Square) :
    square_score O b .white sq = - square_score O b .black sq := by
  unfold square_score
  cases hocc : piece_on O b sq with
  | none => simp
  | some piece =>
      cases hc : color_on O b sq with
      | none =>
          exfalso
          unfold piece_on at hocc
          unfold color_on at hc
          cases h : O.occupant b sq <;> simp [h] at hocc hc
      | some c =>
          cases c <;> simp

/-- C5: for every board (over any rules oracle), the evaluator's score from
White's perspective is the exact negation of its score from Black's
perspective. -/
theorem evaluate_symm (O : Oracle B M) (b : B) :
    evaluate O b .white = - evaluate O b .black := by
  rw [evaluate_eq_sum, evaluate_eq_sum]
  have h : ∀ l : List Square,
      (l.map (square_score O b .white)).sum
        = - (l.map (square_score O b .black)).sum := by
    intro l
    induction l with
    | nil => simp
    | cons x xs ih =>
        simp only [List.map_cons, List.sum_cons, ih, square_score_neg O b x]
        ring
  exact h ALL_SQUARES

/-! ### The search (ai.rs, `minimax`)

The search works on `i32` scores.  No arithmetic in the program can
overflow (scores are material sums bounded by 64·20, and alpha/beta only
ever take max/min of such scores and the two bounds), so we embed `i32`
values as `Int` with the two Rust constants made explicit. -/

/-- Rust's `i32::MIN`. -/
def i32MIN : Int := -2147483648

/-- Rust's `i32::MAX`. -/
def i32MAX : Int := 2147483647

/-- The `for m in MoveGen::new_legal(board)` loop of `minimax`
(ai.rs lines 40–66), as a recursion over the legal-move list.  The state
threaded through the loop is `(alpha, beta, best_eval, best_move)`; `mm` is
the recursive search call at depth `depth - 1` (supplied by `minimax`
below).  An early return models Rust's `break` when `beta <= alpha`. -/
def abLoop (O : Oracle B M) (mm : B → Bool → Color → Int → Int → Int × Option M)
    (b : B) (maximizing : Bool) (perspective : Color) :
    List M → Int → Int → Int → Option M → Int × Option M
  | [], _alpha, _beta, best_eval, best_move => (best_eval, best_move)
  | m :: ms, alpha, beta, best_eval, best_move =>
      let new_board := O.makeMoveNew b m
      let ev := (mm new_board (!maximizing) (Color.not perspective) alpha beta).1
      if maximizing then
        let best_eval' := if best_eval < ev then ev else best_eval
        let best_move' := if best_eval < ev then some m else best_move
        let alpha' := max alpha ev
        if beta ≤ alpha' then (best_eval', best_move')
        else abLoop O mm b maximizing perspective ms alpha' beta best_eval' best_move'
      else
        let best_eval' := if ev < best_eval then ev else best_eval
        let best_move' := if ev < best_eval then some m else best_move
        let beta' := min beta ev
        if beta' ≤ alpha then (best_eval', best_move')
        else abLoop O mm b maximizing perspective ms alpha beta' best_eval' best_move'

/-- `minimax` of ai.rs lines 25–68.  Rust's guard
`depth == 0 || board.status() != BoardStatus::Ongoing` is split into the
`0` pattern (first disjunct) and the `if` in the successor case (second
disjunct); `minimax_eval_base` below restores the unified form.  Each recursive
call flips both the maximizing flag and the perspective, and the returned
score is used without negation, exactly as in the source. -/
def minimax (O : Oracle B M) :
    Nat → B → Bool → Color → Int → Int → Int × Option M
  | 0, b, _maximizing, perspective, _alpha, _beta => (evaluate O b perspective, none)
  | depth + 1, b, maximizing, perspective, alpha, beta =>
      if O.status b ≠ .ongoing then (evaluate O b perspective, none)
      else
        abLoop O (minimax O depth) b maximizing perspective (O.legalMoves b)
          alpha beta (if maximizing then i32MIN else i32MAX) none

theorem minimax_eval_base (O : Oracle B M) (d : Nat) (b : B) (maximizing : Bool)
    (perspective : Color) (alpha beta : Int)
    (h : d = 0 ∨ O.status b ≠ .ongoing) :
    minimax O d b maximizing perspective alpha beta
      = (evaluate O b perspective, none) := by
  cases d with
  | zero => rfl
  | succ n =>
      rcases h with h0 | hs
      · exact absurd h0 (Nat.succ_ne_zero n)
      · simp [minimax, hs]

/-! ### Single-sign negamax (modelled from the spec)

The design document asserts that the search above "is equivalent to a
two-argument (maximizing-flag + sign-flip) formulation of negamax; an
implementer may collapse it into a single-sign negamax routine without
changing observable behavior."  The routine below is that single-sign
negamax formulation, written from the document's description, to be
compared against `minimax`: same base case, same first-seen tie-break, same
alpha update and `beta <= alpha` cutoff, but each child's score is the
negation of the recursive call made from the opponent's perspective with
the window negated and swapped. -/

/-- Modelled from the spec: the move loop of the single-sign negamax
formulation that §4.2 and §9 of the design document claim is observably
equivalent to `minimax`. -/
def nmLoop (O : Oracle B M) (nm : B → Color → Int → Int → Int × Option M)
    (b : B) (perspective : Color) :
    List M → Int → Int → Int → Option M → Int × Option M
  | [], _alpha, _beta, best_eval, best_move => (best_eval, best_move)
  | m :: ms, alpha, beta, best_eval, best_move =>
      let ev := - (nm (O.makeMoveNew b m) (Color.not perspective) (-beta) (-alpha)).1
      let best_eval' := if best_eval < ev then ev else best_eval
      let best_move' := if best_eval < ev then some m else best_move
      let alpha' := max alpha ev
      if beta ≤ alpha' then (best_eval', best_move')
      else nmLoop O nm b perspective ms alpha' beta best_eval' best_move'

/-- Modelled from the spec: single-sign negamax (§4.2 final paragraph, §9).
Every node maximizes the negation of its children's scores; the base case
is the same as `minimax`'s. -/
def negamax (O : Oracle B M) : Nat → B → Color → Int → Int → Int × Option M
  | 0, b, perspective, _alpha, _beta => (evaluate O b perspective, none)
  | depth + 1, b, perspective, alpha, beta =>
      if O.status b ≠ .ongoing then (evaluate O b perspective, none)
      else
        nmLoop O (negamax O depth) b perspective (O.legalMoves b)
          alpha beta i32MIN none

/-! ### The game state machine (game.rs)

`Vec` push/pop stacks are embedded as lists growing at the right end:
`push x` is `· ++ [x]`, `pop` reads `getLast?` and drops the last element.
Rust methods taking `&mut self` become functions from the old state to the
new state (paired with the returned value where there is one); methods
taking `&self` return only a value, so they cannot change the state.
`get_ai_move`'s `.unwrap()` on `recursion_depth` is a fallible operation
(it panics on `None`); we model it by returning `none` for the panic and
`some result` for normal completion. -/

/-- `GameMode` of game.rs lines 14–17. -/
inductive GameMode : Type
  | twoPlayer
  | singlePlayer (player_color : Color)
deriving DecidableEq, Repr

/-- `Status` of game.rs lines 7–11. -/
inductive Status : Type
  | ongoing
  | checkmate (winner : Color)
  | stalemate
deriving DecidableEq, Repr

/-- The `Game` struct of game.rs lines 22–29 (`recursion_depth : u32`
values are embedded as `Nat`; no arithmetic is ever performed on them). -/
structure Game (B M : Type) where
  board : B
  turn : Color
  game_mode : GameMode
  recursion_depth : Option Nat
  history : List (B × Color)
  moves : List M
deriving Repr

/-- `Game::new_multi` (game.rs lines 40–49). -/
def new_multi (O : Oracle B M) : Game B M where
  board := O.defaultBoard
  turn := .white
  game_mode := .twoPlayer
  recursion_depth := none
  history := []
  moves := []

/-- `Game::new_single` (game.rs lines 64–73). -/
def new_single (O : Oracle B M) (player_color : Color) (recursion_depth : Nat) :
    Game B M where
  board := O.defaultBoard
  turn := .white
  game_mode := .singlePlayer player_color
  recursion_depth := some recursion_depth
  history := []
  moves := []

/-- `Game::parse_move` (game.rs lines 97–115).  The UCI branch parses with
`ChessMove::from_str` and then tests `board.legal`; the SAN branch parses
with `ChessMove::from_san` against the current board and performs no
separate legality test. -/
def parse_move (O : Oracle B M) (g : Game B M) (input : String) (uci : Bool) :
    Except String M :=
  if uci then
    match O.fromStr input with
    | some mv =>
        if O.legal g.board mv then .ok mv else .error "Illegal move!"
    | none => .error "Invalid input format!"
  else
    match O.fromSan g.board input with
    | some mv => .ok mv
    | none => .error "Invalid input!"

/-- `Game::make_move` (game.rs lines 130–135): push the prior
`(board, turn)` onto history, apply the move, flip the turn, append the
move to the log. -/
def make_move (O : Oracle B M) (g : Game B M) (mv : M) : Game B M :=
  { g with
      history := g.history ++ [(g.board, g.turn)]
      board := O.makeMoveNew g.board mv
      turn := Color.not g.turn
      moves := g.moves ++ [mv] }

/-- `Game::make_move_from_str` (game.rs lines 161–169). -/
def make_move_from_str (O : Oracle B M) (g : Game B M) (input : String)
    (uci : Bool) : Except String Unit × Game B M :=
  match parse_move O g input uci with
  | .ok mv => (.ok (), make_move O g mv)
  | .error e => (.error e, g)

/-- `Game::undo` (game.rs lines 176–185): pop the last history entry and
restore board and turn from it, pop the move log; error (state unchanged)
when the history is empty. -/
def undo (g : Game B M) : Except String Unit × Game B M :=
  match g.history.getLast? with
  | some (prev_board, prev_turn) =>
      (.ok (),
        { g with
            board := prev_board
            turn := prev_turn
            history := g.history.dropLast
            moves := g.moves.dropLast })
  | none => (.error "No moves to undo!", g)

/-- `Game::status` (game.rs lines 203–209). -/
def Game.status (O : Oracle B M) (g : Game B M) : Status :=
  match O.status g.board with
  | .ongoing => .ongoing
  | .checkmate => .checkmate (Color.not g.turn)
  | .stalemate => .stalemate

/-- `Game::get_ai_move` (game.rs lines 242–259).  Takes `&self`, so it
returns a value and cannot change the game state.  The outer `Option`
models the `.unwrap()` on `recursion_depth`: `none` is the panic, `some r`
is normal completion with result `r`. -/
def get_ai_move (O : Oracle B M) (g : Game B M) : Option (Except String M) :=
  match g.game_mode with
  | .twoPlayer => some (.error "AI can only be used in single player mode")
  | .singlePlayer player_color =>
      let ai_color := Color.not player_color
      match g.recursion_depth with
      | none => none
      | some depth =>
          let r := minimax O depth g.board true ai_color i32MIN i32MAX
          some (match r.2 with
                | some m => .ok m
                | none => .error "No legal moves for AI available")

/-- The states reachable from a given start state by the mutating
operations of `Game` (`make_move`, `make_move_from_str`, `undo`; the
remaining public methods take `&self` and cannot mutate). -/
inductive ReachableFrom (O : Oracle B M) (g0 : Game B M) : Game B M → Prop
  | refl : ReachableFrom O g0 g0
  | mk_move {g} (mv : M) : ReachableFrom O g0 g → ReachableFrom O g0 (make_move O g mv)
  | from_str {g} (input : String) (uci : Bool) :
      ReachableFrom O g0 g → ReachableFrom O g0 (make_move_from_str O g input uci).2
  | undo_step {g} : ReachableFrom O g0 g → ReachableFrom O g0 (undo g).2

/-- The states reachable from either constructor. -/
def Reachable (O : Oracle B M) (g : Game B M) : Prop :=
  ReachableFrom O (new_multi O) g ∨
    ∃ pc d, ReachableFrom O (new_single O pc d) g

/-! ### A concrete oracle instance

A miniature rules oracle (boards and moves are numbered) used to evaluate
the definitions above at concrete inputs.  Board 0 is the starting
position: it holds an enemy queen (square 0, black) and an own rook
(square 1, white), white to move, with two legal moves — move 0 captures
the queen (leading to board 1, where only the white rook remains) and
move 1 leaves the material unchanged (leading to board 3, with the same
occupancy as board 0).  Boards 1 and 3 each have one legal move into an
empty terminal board.  All other boards are empty and terminal, so the
oracle satisfies the interface contract that an Ongoing status comes with a
nonempty legal-move list, and the side to move alternates on every applied
move (board parity). -/

def toyOccupant : Nat → Square → Option (Piece × Color) := fun b sq =>
  if b = 0 ∨ b = 3 then
    if sq = (0 : Square) then some (.queen, .black)
    else if sq = (1 : Square) then some (.rook, .white)
    else none
  else if b = 1 then
    if sq = (1 : Square) then some (.rook, .white) else none
  else none

def toyLegalMoves : Nat → List Nat := fun b =>
  if b = 0 then [0, 1] else if b = 1 then [0] else if b = 3 then [0] else []

def toyMakeMoveNew : Nat → Nat → Nat := fun b m =>
  if b = 0 then (if m = 0 then 1 else 3) else b + 1

/-- The miniature oracle. -/
def toy : Oracle Nat Nat where
  occupant := toyOccupant
  legalMoves := toyLegalMoves
  makeMoveNew := toyMakeMoveNew
  status := fun b => if b = 0 ∨ b = 1 ∨ b = 3 then .ongoing else .stalemate
  legal := fun b m => (toyLegalMoves b).contains m
  sideToMove := fun b => if b % 2 = 0 then .white else .black
  fromStr := fun s => if s = "a" then some 0 else if s = "b" then some 5 else none
  fromSan := fun b s => if b = 0 ∧ s = "c" then some 0 else none
  defaultBoard := 0

theorem toy_ongoing_moves :
    ∀ b, toy.status b = .ongoing → toy.legalMoves b ≠ [] := by
  intro b h
  by_cases h0 : b = 0
  · simp [toy, toyLegalMoves, h0]
  · by_cases h1 : b = 1
    · simp [toy, toyLegalMoves, h1]
    · by_cases h3 : b = 3
      · simp [toy, toyLegalMoves, h3]
      · simp [toy, h0, h1, h3] at h

theorem toy_fromSan_legal :
    ∀ (b : Nat) (s : String) (m : Nat),
      toy.fromSan b s = some m → toy.legal b m = true := by
  intro b s m h
  by_cases hb : b = 0 ∧ s = "c"
  · simp [toy, hb] at h
    subst h
    simp [toy, hb.1, toyLegalMoves]
  · simp [toy, hb] at h

theorem toy_side_default : toy.sideToMove toy.defaultBoard = .white := rfl

theorem toy_side_flip :
    ∀ (b m : Nat),
      toy.sideToMove (toy.makeMoveNew b m) = (toy.sideToMove b).not := by
  intro b m
  by_cases hb : b = 0
  · by_cases hm : m = 0 <;> simp [toy, toyMakeMoveNew, hb, hm] <;> rfl
  · have hmod : (b + 1) % 2 = (if b % 2 = 0 then 1 else 0) := by
      rcases Nat.mod_two_eq_zero_or_one b with h | h <;> simp [h] <;> omega
    by_cases h : b % 2 = 0 <;>
      simp [toy, toyMakeMoveNew, hb, hmod, h, Color.not]

example : evaluate toy 0 .white = -4 := by decide
example : evaluate toy 1 .black = -5 := by decide
example : minimax toy 1 0 true .white i32MIN i32MAX = (4, some 1) := by decide
example : negamax toy 1 0 .white i32MIN i32MAX = (5, some 0) := by decide

/-! ### Claim theorems -/

/-- C1 (counterexample): the implemented search is NOT observably
equivalent to the single-sign negamax formulation.  At the concrete
starting board of the `toy` oracle (an Ongoing position with two legal
moves, one of which captures an enemy queen), the root call with
depth 1, maximizing = true, perspective = White, alpha = MIN, beta = MAX
returns `(4, some 1)` (the non-capturing move) from `minimax` but
`(5, some 0)` (the capture) from `negamax`: both the score and the chosen
move differ, because the implementation flips the perspective of the
recursive call without negating the returned score, so a maximizing node
maximizes the opponent-relative score of its children. -/
theorem negamax_collapse_fails :
    minimax toy 1 toy.defaultBoard true .white i32MIN i32MAX
      ≠ negamax toy 1 toy.defaultBoard .white i32MIN i32MAX := by
  decide

/-- C1 (amended): the two formulations agree exactly on the base case —
whenever the depth is 0 or the position's status is not Ongoing, the
implemented search and the single-sign negamax both return
`(evaluate(position, perspective), None)`; at depth ≥ 1 from an Ongoing
position they can return different (score, bestMove) pairs. -/
theorem negamax_collapse_base_only (O : Oracle B M) (d : Nat) (b : B)
    (perspective : Color) (alpha beta : Int)
    (h : d = 0 ∨ O.status b ≠ .ongoing) :
    minimax O d b true perspective alpha beta
      = negamax O d b perspective alpha beta := by
  rw [minimax_eval_base O d b true perspective alpha beta h]
  cases d with
  | zero => rfl
  | succ n =>
      rcases h with h0 | hs
      · exact absurd h0 (Nat.succ_ne_zero n)
      · simp [negamax, hs]

/-- Witness for C1 (amended) at depth 0 on the toy oracle. -/
theorem negamax_collapse_base_only_witness :
    minimax toy 0 0 true .white i32MIN i32MAX
      = negamax toy 0 0 .white i32MIN i32MAX :=
  negamax_collapse_base_only toy 0 0 .white i32MIN i32MAX (Or.inl rfl)

/-- C6: for every oracle, position, perspective, maximizing flag and
alpha/beta window, a search call with depth 0 returns exactly
`(evaluate(position, perspective), None)`, and the same result is returned
at any depth when the position's status is not Ongoing. -/
theorem minimax_base_case (O : Oracle B M) (d : Nat) (b : B)
    (maximizing : Bool) (perspective : Color) (alpha beta : Int)
    (h : d = 0 ∨ O.status b ≠ .ongoing) :
    minimax O d b maximizing perspective alpha beta
      = (evaluate O b perspective, none) :=
  minimax_eval_base O d b maximizing perspective alpha beta h

/-- Witness for C6: a depth-0 call on the toy oracle. -/
theorem minimax_base_case_witness :
    minimax toy 0 0 false .black 3 7 = (evaluate toy 0 .black, none) :=
  minimax_base_case toy 0 0 false .black 3 7 (Or.inl rfl)

/-- C4: for every game state and every move, `make_move` followed
immediately by `undo` succeeds and restores the entire prior state — in
particular the current position, the side to move and the move log (the
history stack is restored too, so this holds after any prefix of any
sequence of applied moves). -/
theorem make_move_undo_roundtrip (O : Oracle B M) (g : Game B M) (mv : M) :
    undo (make_move O g mv) = (.ok (), g) := by
  cases g
  simp [undo, make_move, List.getLast?_concat, List.dropLast_concat]

/-- C2: behavior of `make_move_from_str` for both notation kinds.  If the
input does not parse under the requested notation, it returns the
invalid-notation error for that kind and leaves the state unchanged; if
the text parses to a move that is not legal in the current position, it
returns the distinct "Illegal move!" error with the state unchanged;
otherwise it applies the move and returns success.  The hypothesis `hsan`
is the rules-library contract that SAN parsing resolves the text against
the current position's legal moves, so it only ever produces legal moves
(the UCI branch needs no such contract: the code tests legality itself). -/
theorem make_move_from_str_spec (O : Oracle B M)
    (hsan : ∀ (b : B) (s : String) (m : M),
      O.fromSan b s = some m → O.legal b m = true)
    (g : Game B M) (input : String) (uci : Bool) :
    ((if uci then O.fromStr input else O.fromSan g.board input) = none →
      make_move_from_str O g input uci
        = (.error (if uci then "Invalid input format!" else "Invalid input!"), g)) ∧
    (∀ m, (if uci then O.fromStr input else O.fromSan g.board input) = some m →
      O.legal g.board m = false →
      make_move_from_str O g input uci = (.error "Illegal move!", g)) ∧
    (∀ m, (if uci then O.fromStr input else O.fromSan g.board input) = some m →
      O.legal g.board m = true →
      make_move_from_str O g input uci = (.ok (), make_move O g m)) := by
  refine ⟨?_, ?_, ?_⟩
  · intro hnone
    cases huci : uci with
    | true =>
        rw [huci] at hnone
        simp at hnone
        simp [make_move_from_str, parse_move, hnone]
    | false =>
        rw [huci] at hnone
        simp at hnone
        simp [make_move_from_str, parse_move, hnone]
  · intro m hsome hleg
    cases huci : uci with
    | true =>
        rw [huci] at hsome
        simp at hsome
        simp [make_move_from_str, parse_move, hsome, hleg]
    | false =>
        rw [huci] at hsome
        simp at hsome
        exact absurd (hsan g.board input m hsome) (by simp [hleg])
  · intro m hsome hleg
    cases huci : uci with
    | true =>
        rw [huci] at hsome
        simp at hsome
        simp [make_move_from_str, parse_move, hsome, hleg]
    | false =>
        rw [huci] at hsome
        simp at hsome
        simp [make_move_from_str, parse_move, hsome]

/-- Witness for C2 on the toy oracle: SAN input at the starting board. -/
theorem make_move_from_str_spec_witness :
    ((if false then toy.fromStr "c" else toy.fromSan (new_multi toy).board "c") = none →
      make_move_from_str toy (new_multi toy) "c" false
        = (.error (if false then "Invalid input format!" else "Invalid input!"),
            new_multi toy)) ∧
    (∀ m, (if false then toy.fromStr "c" else toy.fromSan (new_multi toy).board "c") = some m →
      toy.legal (new_multi toy).board m = false →
      make_move_from_str toy (new_multi toy) "c" false
        = (.error "Illegal move!", new_multi toy)) ∧
    (∀ m, (if false then toy.fromStr "c" else toy.fromSan (new_multi toy).board "c") = some m →
      toy.legal (new_multi toy).board m = true →
      make_move_from_str toy (new_multi toy) "c" false
        = (.ok (), make_move toy (new_multi toy) m)) :=
  make_move_from_str_spec toy toy_fromSan_legal (new_multi toy) "c" false

/-! ### Reachability invariants -/

theorem reachableFrom_mode_depth (O : Oracle B M) {g0 g : Game B M}
    (h : ReachableFrom O g0 g) :
    g.game_mode = g0.game_mode ∧ g.recursion_depth = g0.recursion_depth := by
  induction h with
  | refl => exact ⟨rfl, rfl⟩
  | mk_move mv h ih => simpa [make_move] using ih
  | from_str input uci h ih =>
      rename_i g'
      unfold make_move_from_str
      cases parse_move O g' input uci <;> simpa [make_move] using ih
  | undo_step h ih =>
      rename_i g'
      unfold undo
      cases hh : g'.history.getLast? with
      | none => simpa using ih
      | some e =>
          obtain ⟨pb, pt⟩ := e
          simpa using ih

theorem reachableFrom_len (O : Oracle B M) {g0 g : Game B M}
    (hbase : g0.history.length = g0.moves.length)
    (h : ReachableFrom O g0 g) : g.history.length = g.moves.length := by
  induction h with
  | refl => exact hbase
  | mk_move mv h ih => simp [make_move, ih]
  | from_str input uci h ih =>
      rename_i g'
      unfold make_move_from_str
      cases parse_move O g' input uci <;> simp [make_move, ih]
  | undo_step h ih =>
      rename_i g'
      unfold undo
      cases hh : g'.history.getLast? with
      | none => simpa using ih
      | some e =>
          obtain ⟨pb, pt⟩ := e
          simp [List.length_dropLast, ih]

theorem reachableFrom_side_inv (O : Oracle B M)
    (happly : ∀ (b : B) (m : M),
      O.sideToMove (O.makeMoveNew b m) = (O.sideToMove b).not)
    {g0 g : Game B M}
    (hbase : O.sideToMove g0.board = g0.turn ∧
      ∀ e ∈ g0.history, O.sideToMove e.1 = e.2)
    (h : ReachableFrom O g0 g) :
    O.sideToMove g.board = g.turn ∧
      ∀ e ∈ g.history, O.sideToMove e.1 = e.2 := by
  induction h with
  | refl => exact hbase
  | mk_move mv h ih =>
      refine ⟨by simp [make_move, happly, ih.1], ?_⟩
      intro e he
      simp only [make_move, List.mem_append, List.mem_singleton] at he
      rcases he with he | he
      · exact ih.2 e he
      · subst he; exact ih.1
  | from_str input uci h ih =>
      rename_i g'
      unfold make_move_from_str
      cases parse_move O g' input uci with
      | error e => simpa using ih
      | ok mv =>
          refine ⟨by simp [make_move, happly, ih.1], ?_⟩
          intro e he
          simp only [make_move, List.mem_append, List.mem_singleton] at he
          rcases he with he | he
          · exact ih.2 e he
          · subst he; exact ih.1
  | undo_step h ih =>
      rename_i g'
      unfold undo
      cases hh : g'.history.getLast? with
      | none => simpa using ih
      | some e =>
          obtain ⟨pb, pt⟩ := e
          refine ⟨ih.2 (pb, pt) (List.mem_of_getLast?_eq_some hh), ?_⟩
          intro e' he'
          exact ih.2 e' (List.mem_of_mem_dropLast he')

/-- C7: in every reachable game state the history stack and the move log
have the same length — both constructors create them empty, `make_move`
pushes one entry onto each, and `undo` pops one from each (or changes
nothing when it fails). -/
theorem history_moves_length_eq (O : Oracle B M) (g : Game B M)
    (h : Reachable O g) : g.history.length = g.moves.length := by
  rcases h with h | ⟨pc, d, h⟩
  · exact reachableFrom_len O rfl h
  · exact reachableFrom_len O rfl h

/-- Witness for C7: the freshly constructed two-player game. -/
theorem history_moves_length_eq_witness :
    (new_multi toy).history.length = (new_multi toy).moves.length :=
  history_moves_length_eq toy (new_multi toy) (Or.inl ReachableFrom.refl)

/-- C8: for every game constructed in TwoPlayer mode and every state
reachable from it, `get_ai_move` returns the "AI can only be used in
single player mode" error, regardless of the current position.  (It takes
`&self`, so in the embedding it returns only a value and cannot change the
game state.) -/
theorem get_ai_move_two_player (O : Oracle B M) (g : Game B M)
    (h : ReachableFrom O (new_multi O) g) :
    get_ai_move O g
      = some (.error "AI can only be used in single player mode") := by
  have hm := (reachableFrom_mode_depth O h).1
  simp only [new_multi] at hm
  simp [get_ai_move, hm]

/-- Witness for C8: the freshly constructed two-player game. -/
theorem get_ai_move_two_player_witness :
    get_ai_move toy (new_multi toy)
      = some (.error "AI can only be used in single player mode") :=
  get_ai_move_two_player toy (new_multi toy) ReachableFrom.refl

/-- C10: the `.unwrap()` on `recursion_depth` inside `get_ai_move` can
never panic.  In every reachable state the mode is SinglePlayer exactly
when `recursion_depth` is `Some` (both constructors establish the
correspondence and no operation mutates either field), and in the
TwoPlayer case `get_ai_move` returns early before the unwrap; hence
`get_ai_move` never takes the panic (`none`) outcome. -/
theorem recursion_depth_unwrap_safe (O : Oracle B M) (g : Game B M)
    (h : Reachable O g) :
    ((∃ pc, g.game_mode = .singlePlayer pc) ↔ g.recursion_depth.isSome) ∧
      get_ai_move O g ≠ none := by
  rcases h with h | ⟨pc, d, h⟩
  · obtain ⟨hm, hd⟩ := reachableFrom_mode_depth O h
    simp only [new_multi] at hm hd
    constructor
    · rw [hm, hd]
      simp
    · simp [get_ai_move, hm]
  · obtain ⟨hm, hd⟩ := reachableFrom_mode_depth O h
    simp only [new_single] at hm hd
    constructor
    · rw [hm, hd]
      simp
    · simp [get_ai_move, hm, hd]

/-- Witness for C10: a freshly constructed single-player game. -/
theorem recursion_depth_unwrap_safe_witness :
    ((∃ pc, (new_single toy .white 2).game_mode = .singlePlayer pc) ↔
        (new_single toy .white 2).recursion_depth.isSome) ∧
      get_ai_move toy (new_single toy .white 2) ≠ none :=
  recursion_depth_unwrap_safe toy (new_single toy .white 2)
    (Or.inr ⟨.white, 2, ReachableFrom.refl⟩)

/-- C9: in every reachable game state the stored `turn` field equals the
side to move of the stored board, provided the rules library's starting
position has White to move and applying a move flips the side to move
(both hold of the chess library and are the design document's §3
alternation contract).  Consequently, when the board is checkmated,
`status()` reports `Checkmate(!turn)`, naming the side whose opponent is
to move. -/
theorem turn_matches_side_to_move (O : Oracle B M)
    (hdef : O.sideToMove O.defaultBoard = .white)
    (happly : ∀ (b : B) (m : M),
      O.sideToMove (O.makeMoveNew b m) = (O.sideToMove b).not)
    (g : Game B M) (h : Reachable O g) :
    O.sideToMove g.board = g.turn ∧
      (O.status g.board = .checkmate →
        Game.status O g = .checkmate (Color.not (O.sideToMove g.board))) := by
  have main : O.sideToMove g.board = g.turn := by
    rcases h with h | ⟨pc, d, h⟩
    · exact (reachableFrom_side_inv O happly ⟨hdef, by simp [new_multi]⟩ h).1
    · exact (reachableFrom_side_inv O happly ⟨hdef, by simp [new_single]⟩ h).1
  refine ⟨main, ?_⟩
  intro hcm
  simp [Game.status, hcm, main]

/-- Witness for C9: the freshly constructed two-player game over the toy
oracle (whose side to move alternates with board parity). -/
theorem turn_matches_side_to_move_witness :
    toy.sideToMove (new_multi toy).board = (new_multi toy).turn ∧
      (toy.status (new_multi toy).board = .checkmate →
        Game.status toy (new_multi toy)
          = .checkmate (Color.not (toy.sideToMove (new_multi toy).board))) :=
  turn_matches_side_to_move toy toy_side_default toy_side_flip
    (new_multi toy) (Or.inl ReachableFrom.refl)

/-! ### Bounds on search values

All scores the search can produce lie strictly between `i32MIN` and
`i32MAX` whenever the oracle honors the interface contract that an
Ongoing position has at least one legal move ("empty sequence signals a
terminal position"): leaf scores are material sums bounded by 64·20, and
interior nodes take max/min over a nonempty prefix of children.  This is
what makes the first loop iteration always adopt its child as the best
move. -/

theorem piece_value_bounds (pc : Piece) :
    1 ≤ piece_value pc ∧ piece_value pc ≤ 20 := by
  cases pc <;> exact ⟨by norm_num [piece_value], by norm_num [piece_value]⟩

theorem square_score_bound (O : Oracle B M) (b : B) (p : Color) (sq : Square) :
    -20 ≤ square_score O b p sq ∧ square_score O b p sq ≤ 20 := by
  cases hocc : piece_on O b sq with
  | none => simp [square_score, hocc]
  | some pc =>
      have h := piece_value_bounds pc
      simp only [square_score, hocc]
      split <;> omega

theorem foldl_score_bound (O : Oracle B M) (b : B) (p : Color) :
    ∀ (l : List Square) (a : Int),
      a - 20 * l.length ≤ l.foldl (fun s sq => s + square_score O b p sq) a ∧
      l.foldl (fun s sq => s + square_score O b p sq) a ≤ a + 20 * l.length := by
  intro l
  induction l with
  | nil => intro a; simp
  | cons x xs ih =>
      intro a
      have hx := square_score_bound O b p x
      have h2 := ih (a + square_score O b p x)
      simp only [List.foldl_cons, List.length_cons] at h2 ⊢
      push_cast at h2 ⊢
      omega

theorem evaluate_bound (O : Oracle B M) (b : B) (p : Color) :
    -1280 ≤ evaluate O b p ∧ evaluate O b p ≤ 1280 := by
  have h := foldl_score_bound O b p ALL_SQUARES 0
  have hlen : (ALL_SQUARES : List Square).length = 64 := by
    simp [ALL_SQUARES]
  rw [hlen] at h
  unfold evaluate
  omega

theorem evaluate_strict (O : Oracle B M) (b : B) (p : Color) :
    i32MIN < evaluate O b p ∧ evaluate O b p < i32MAX := by
  have h := evaluate_bound O b p
  unfold i32MIN i32MAX
  omega

theorem if_lt_max (a ev : Int) : (if a < ev then ev else a) = max a ev := by
  rcases le_or_lt ev a with h | h
  · rw [if_neg (not_lt.mpr h), max_eq_left h]
  · rw [if_pos h, max_eq_right h.le]

theorem if_lt_min (a ev : Int) : (if ev < a then ev else a) = min a ev := by
  rcases le_or_lt a ev with h | h
  · rw [if_neg (not_lt.mpr h), min_eq_left h]
  · rw [if_pos h, min_eq_right h.le]

theorem abLoop_bounds (O : Oracle B M)
    (mm : B → Bool → Color → Int → Int → Int × Option M)
    (b : B) (maxi : Bool) (p : Color)
    (hmm : ∀ (b' : B) (mx : Bool) (p' : Color) (a bt : Int),
      i32MIN < (mm b' mx p' a bt).1 ∧ (mm b' mx p' a bt).1 < i32MAX) :
    ∀ (ms : List M) (alpha beta be : Int) (bm : Option M),
      ((i32MIN < be ∧ be < i32MAX) ∨
        (ms ≠ [] ∧ be = if maxi then i32MIN else i32MAX)) →
      i32MIN < (abLoop O mm b maxi p ms alpha beta be bm).1 ∧
        (abLoop O mm b maxi p ms alpha beta be bm).1 < i32MAX := by
  intro ms
  induction ms with
  | nil =>
      intro alpha beta be bm hbe
      rcases hbe with ⟨h1, h2⟩ | ⟨hne, _⟩
      · simpa [abLoop] using ⟨h1, h2⟩
      · exact absurd rfl hne
  | cons m ms ih =>
      intro alpha beta be bm hbe
      cases maxi with
      | true =>
          obtain ⟨hev1, hev2⟩ := hmm (O.makeMoveNew b m) false (Color.not p) alpha beta
          simp only [abLoop, Bool.not_true]
          set ev := (mm (O.makeMoveNew b m) false (Color.not p) alpha beta).1 with hev
          have hbe' : i32MIN < (if be < ev then ev else be) ∧
              (if be < ev then ev else be) < i32MAX := by
            rcases hbe with ⟨h1, h2⟩ | ⟨_, hbeq⟩
            · split <;> constructor <;> linarith
            · simp at hbeq
              rw [hbeq, if_pos hev1]
              exact ⟨hev1, hev2⟩
          by_cases hbr : beta ≤ max alpha ev
          · rw [if_pos hbr]
            exact hbe'
          · rw [if_neg hbr]
            exact ih (max alpha ev) beta _ _ (Or.inl hbe')
      | false =>
          obtain ⟨hev1, hev2⟩ := hmm (O.makeMoveNew b m) true (Color.not p) alpha beta
          simp only [abLoop, Bool.not_false]
          set ev := (mm (O.makeMoveNew b m) true (Color.not p) alpha beta).1 with hev
          have hbe' : i32MIN < (if ev < be then ev else be) ∧
              (if ev < be then ev else be) < i32MAX := by
            rcases hbe with ⟨h1, h2⟩ | ⟨_, hbeq⟩
            · split <;> constructor <;> linarith
            · simp at hbeq
              rw [hbeq, if_pos hev2]
              exact ⟨hev1, hev2⟩
          by_cases hbr : min beta ev ≤ alpha
          · rw [if_pos hbr]
            exact hbe'
          · rw [if_neg hbr]
            exact ih alpha (min beta ev) _ _ (Or.inl hbe')

theorem minimax_bounds (O : Oracle B M)
    (hO : ∀ b, O.status b = .ongoing → O.legalMoves b ≠ []) :
    ∀ (d : Nat) (b : B) (maxi : Bool) (p : Color) (alpha beta : Int),
      i32MIN < (minimax O d b maxi p alpha beta).1 ∧
        (minimax O d b maxi p alpha beta).1 < i32MAX := by
  intro d
  induction d with
  | zero =>
      intro b maxi p alpha beta
      simpa [minimax] using evaluate_strict O b p
  | succ n ih =>
      intro b maxi p alpha beta
      by_cases hs : O.status b = .ongoing
      · have hne := hO b hs
        have hrw : minimax O (n + 1) b maxi p alpha beta
            = abLoop O (minimax O n) b maxi p (O.legalMoves b) alpha beta
                (if maxi then i32MIN else i32MAX) none := by
          simp [minimax, hs]
        rw [hrw]
        exact abLoop_bounds O (minimax O n) b maxi p
          (fun b' mx p' a bt => ih b' mx p' a bt)
          (O.legalMoves b) alpha beta _ none (Or.inr ⟨hne, rfl⟩)
      · rw [minimax_eval_base O (n + 1) b maxi p alpha beta (Or.inr hs)]
        exact evaluate_strict O b p

theorem abLoop_picks (O : Oracle B M)
    (mm : B → Bool → Color → Int → Int → Int × Option M)
    (b : B) (maxi : Bool) (p : Color)
    (hmm : ∀ (b' : B) (mx : Bool) (p' : Color) (a bt : Int),
      i32MIN < (mm b' mx p' a bt).1 ∧ (mm b' mx p' a bt).1 < i32MAX)
    (L : List M) :
    ∀ (ms : List M) (alpha beta be : Int) (bm : Option M),
      (∀ x ∈ ms, x ∈ L) →
      (∀ m0, bm = some m0 → m0 ∈ L) →
      (bm = none → ms ≠ [] ∧ be = (if maxi then i32MIN else i32MAX)) →
      ∃ m0, (abLoop O mm b maxi p ms alpha beta be bm).2 = some m0 ∧ m0 ∈ L := by
  intro ms
  induction ms with
  | nil =>
      intro alpha beta be bm hsub hbm hnone
      cases bm with
      | none => exact absurd rfl (fun h => (hnone h).1 rfl)
      | some m0 => exact ⟨m0, by simp [abLoop], hbm m0 rfl⟩
  | cons m ms ih =>
      intro alpha beta be bm hsub hbm hnone
      have hm : m ∈ L := hsub m (List.mem_cons_self m ms)
      cases maxi with
      | true =>
          obtain ⟨hev1, _⟩ := hmm (O.makeMoveNew b m) false (Color.not p) alpha beta
          simp only [abLoop, Bool.not_true]
          set ev := (mm (O.makeMoveNew b m) false (Color.not p) alpha beta).1 with hev
          have key : ∃ m0, (if be < ev then some m else bm) = some m0 ∧ m0 ∈ L := by
            by_cases hlt : be < ev
            · exact ⟨m, by rw [if_pos hlt], hm⟩
            · cases hbmc : bm with
              | none =>
                  have hbeq := (hnone hbmc).2
                  simp at hbeq
                  rw [hbeq] at hlt
                  exact absurd hev1 hlt
              | some m0 => exact ⟨m0, by rw [if_neg hlt], hbm m0 hbmc⟩
          obtain ⟨m0, hkey, hmem⟩ := key
          by_cases hbr : beta ≤ max alpha ev
          · rw [if_pos hbr]
            exact ⟨m0, hkey, hmem⟩
          · rw [if_neg hbr]
            refine ih (max alpha ev) beta _ _
              (fun x hx => hsub x (List.mem_cons_of_mem m hx))
              (fun m1 h1 => ?_) (fun h0 => absurd h0 (by rw [hkey]; simp))
            rw [hkey] at h1
            cases h1
            exact hmem
      | false =>
          obtain ⟨_, hev2⟩ := hmm (O.makeMoveNew b m) true (Color.not p) alpha beta
          simp only [abLoop, Bool.not_false]
          set ev := (mm (O.makeMoveNew b m) true (Color.not p) alpha beta).1 with hev
          have key : ∃ m0, (if ev < be then some m else bm) = some m0 ∧ m0 ∈ L := by
            by_cases hlt : ev < be
            · exact ⟨m, by rw [if_pos hlt], hm⟩
            · cases hbmc : bm with
              | none =>
                  have hbeq := (hnone hbmc).2
                  simp at hbeq
                  rw [hbeq] at hlt
                  exact absurd hev2 hlt
              | some m0 => exact ⟨m0, by rw [if_neg hlt], hbm m0 hbmc⟩
          obtain ⟨m0, hkey, hmem⟩ := key
          by_cases hbr : min beta ev ≤ alpha
          · rw [if_pos hbr]
            exact ⟨m0, hkey, hmem⟩
          · rw [if_neg hbr]
            refine ih alpha (min beta ev) _ _
              (fun x hx => hsub x (List.mem_cons_of_mem m hx))
              (fun m1 h1 => ?_) (fun h0 => absurd h0 (by rw [hkey]; simp))
            rw [hkey] at h1
            cases h1
            exact hmem

theorem minimax_some (O : Oracle B M)
    (hO : ∀ b, O.status b = .ongoing → O.legalMoves b ≠ [])
    (n : Nat) (b : B) (maxi : Bool) (p : Color) (alpha beta : Int)
    (hs : O.status b = .ongoing) :
    ∃ m, (minimax O (n + 1) b maxi p alpha beta).2 = some m ∧
      m ∈ O.legalMoves b := by
  have hne := hO b hs
  have hrw : minimax O (n + 1) b maxi p alpha beta
      = abLoop O (minimax O n) b maxi p (O.legalMoves b) alpha beta
          (if maxi then i32MIN else i32MAX) none := by
    simp [minimax, hs]
  rw [hrw]
  exact abLoop_picks O (minimax O n) b maxi p
    (fun b' mx p' a bt => minimax_bounds O hO n b' mx p' a bt)
    (O.legalMoves b) (O.legalMoves b) alpha beta _ none
    (fun x hx => hx) (fun m0 h0 => by cases h0) (fun _ => ⟨hne, rfl⟩)

/-- C3: in SinglePlayer mode with a search depth of at least 1, under the
rules-library contract that an Ongoing position has a nonempty legal-move
list ("empty sequence signals a terminal position"): whenever the current
status is Ongoing, `get_ai_move` completes normally with `Ok(m)` for some
`m` among the current position's legal moves; and it completes normally
with the "No legal moves for AI available" error exactly when the current
position is terminal. -/
theorem get_ai_move_legal (O : Oracle B M)
    (hO : ∀ b, O.status b = .ongoing → O.legalMoves b ≠ [])
    (g : Game B M) (pc : Color) (d : Nat)
    (hm : g.game_mode = .singlePlayer pc)
    (hd : g.recursion_depth = some d) (h1 : 1 ≤ d) :
    (Game.status O g = .ongoing →
      ∃ m, get_ai_move O g = some (.ok m) ∧ m ∈ O.legalMoves g.board) ∧
    (get_ai_move O g = some (.error "No legal moves for AI available") ↔
      Game.status O g ≠ .ongoing) := by
  obtain ⟨n, rfl⟩ : ∃ n, d = n + 1 := ⟨d - 1, by omega⟩
  have hstat : Game.status O g = .ongoing ↔ O.status g.board = .ongoing := by
    cases h : O.status g.board <;> simp [Game.status, h]
  have hmain : O.status g.board = .ongoing →
      ∃ m, get_ai_move O g = some (.ok m) ∧ m ∈ O.legalMoves g.board := by
    intro hs
    obtain ⟨m, hm2, hmem⟩ :=
      minimax_some O hO n g.board true (Color.not pc) i32MIN i32MAX hs
    refine ⟨m, ?_, hmem⟩
    simp [get_ai_move, hm, hd, hm2]
  refine ⟨fun h => hmain (hstat.mp h), ?_, ?_⟩
  · intro herr
    rw [Ne, hstat]
    intro hs
    obtain ⟨m, hok, _⟩ := hmain hs
    rw [hok] at herr
    simp at herr
  · intro hne
    have hs : O.status g.board ≠ .ongoing := fun h => hne (hstat.mpr h)
    have hbase := minimax_eval_base O (n + 1) g.board true (Color.not pc)
      i32MIN i32MAX (Or.inr hs)
    simp [get_ai_move, hm, hd, hbase]

/-- Witness for C3: a single-player game at depth 1 on the toy oracle
(whose starting position is Ongoing with two legal moves). -/
theorem get_ai_move_legal_witness :
    (Game.status toy (new_single toy .black 1) = .ongoing →
      ∃ m, get_ai_move toy (new_single toy .black 1) = some (.ok m) ∧
        m ∈ toy.legalMoves (new_single toy .black 1).board) ∧
    (get_ai_move toy (new_single toy .black 1)
        = some (.error "No legal moves for AI available") ↔
      Game.status toy (new_single toy .black 1) ≠ .ongoing) :=
  get_ai_move_legal toy toy_ongoing_moves (new_single toy .black 1) .black 1
    rfl rfl (by decide)

end RChess
